import Mathlib

/-!
Verification of the link-manager repository: a shallow embedding of the
client-side ordering engine (drag-and-drop reordering, category deletion,
search filtering, link insertion and deletion) and of the worker HTTP API
(login, change-password, data read and write), together with theorems about
the claimed behaviour.

Conventions used throughout the embedding:
- JS arrays are Lean lists; `arr.splice(n, 0, a)` is `spliceInsert n a l`
  and `arr.splice(n, 1)` is `List.eraseIdx l n` (both clamp out-of-range
  indices, exactly like splice).
- JS `findIndex` returns -1 when no element matches; `List.findIdx` returns
  the length of the list in that case, so the JS guard `idx !== -1`
  corresponds to `idx < l.length`, equivalently to `l[idx]? = some _`.
- JS numbers stored in `order` fields are modelled as `Int`; the code only
  ever writes array indices into them.
- The SHA-256 digest of the worker is modelled as an abstract function
  `hash : String → String`, since every behaviour claimed about the worker
  depends only on equality comparisons between digests.
-/

namespace LinkManager

/-- Sub-link record nested inside a link (source type `SubLink`). -/
structure SubLink where
  id : String
  title : String
  url : String
deriving DecidableEq

/-- Link record (source type `LinkItem`). -/
structure LinkItem where
  id : String
  title : String
  url : String
  description : Option String
  categoryId : String
  createdAt : Nat
  order : Int
  subLinks : List SubLink
deriving DecidableEq

/-- Category record (source type `Category`). -/
structure Category where
  id : String
  name : String
  order : Int
deriving DecidableEq

/-- The persisted dataset (source type `AppData`). -/
structure AppData where
  categories : List Category
  links : List LinkItem
deriving DecidableEq

/-- Drop position computed by `handleDragOver`; the source value
`DropPosition = BEFORE | AFTER | null` is modelled as `Option DropPosition`. -/
inductive DropPosition where
  | BEFORE
  | AFTER
deriving DecidableEq

/-- JS `arr.splice(n, 0, a)`: insert `a` at index `n`, clamped to the array
length. -/
def spliceInsert {α : Type _} (n : Nat) (a : α) (l : List α) : List α :=
  l.take n ++ a :: l.drop n

/-- Models `list.map((item, idx) => ({ ...item, order: idx }))` for links,
with the running index made explicit. -/
def renumberLinksFrom (n : Nat) : List LinkItem → List LinkItem
  | [] => []
  | l :: ls => { l with order := (n : Int) } :: renumberLinksFrom (n + 1) ls

/-- Renumber every order field of a link list to its positional index. -/
def renumberLinks (ls : List LinkItem) : List LinkItem :=
  renumberLinksFrom 0 ls

/-- Models `list.map((item, idx) => ({ ...item, order: idx }))` for
categories. -/
def renumberCatsFrom (n : Nat) : List Category → List Category
  | [] => []
  | c :: cs => { c with order := (n : Int) } :: renumberCatsFrom (n + 1) cs

/-- Renumber every order field of a category list to its positional index. -/
def renumberCats (cs : List Category) : List Category :=
  renumberCatsFrom 0 cs

/-- Category-over-category branch of `handleDropWithState` (part_000 lines
652-664): look up the dragged and the target index, splice the dragged
category out at `oldIndex`, splice it back in at `newIndex` (note: the index
found BEFORE the removal), then renumber all orders. The JS guard
`oldIndex !== -1 && newIndex !== -1` is the requirement that both lookups
land inside the list. -/
def dropCategoryOnCategory (cats : List Category) (draggedId targetId : String) :
    List Category :=
  let oldIndex := cats.findIdx (fun i => i.id == draggedId)
  let newIndex := cats.findIdx (fun i => i.id == targetId)
  match cats[oldIndex]?, cats[newIndex]? with
  | some moved, some _ =>
      renumberCats (spliceInsert newIndex moved (cats.eraseIdx oldIndex))
  | _, _ => cats

/-- Link-over-link branch of `handleDropWithState` (part_000 lines 667-701):
reassign the dragged categoryId to the target categoryId, splice the dragged
link out, recompute the target index on the shortened list, add one when the
drop position is AFTER, splice the dragged link back in, renumber all
orders. Dropping a link onto itself (same index) returns the list
unchanged. -/
def dropLinkOnLink (links : List LinkItem) (draggedId targetId : String)
    (dropPosition : Option DropPosition) : List LinkItem :=
  let draggedLinkIndex := links.findIdx (fun l => l.id == draggedId)
  match links[draggedLinkIndex]? with
  | none => links
  | some dragged0 =>
    let targetLinkIndex := links.findIdx (fun l => l.id == targetId)
    match links[targetLinkIndex]? with
    | none => links
    | some targetLink =>
      if draggedLinkIndex = targetLinkIndex then links
      else
        let draggedLink := { dragged0 with categoryId := targetLink.categoryId }
        let rest := links.eraseIdx draggedLinkIndex
        let newTargetIndex := rest.findIdx (fun l => l.id == targetId)
        let insertIndex :=
          if dropPosition = some DropPosition.AFTER then newTargetIndex + 1
          else newTargetIndex
        renumberLinks (spliceInsert insertIndex draggedLink rest)

/-- Link-over-category branch of `handleDropWithState` (part_000 lines
704-707): recategorize only, no reordering. -/
def dropLinkOnCategory (links : List LinkItem) (draggedId targetId : String) :
    List LinkItem :=
  let draggedLinkIndex := links.findIdx (fun l => l.id == draggedId)
  match links[draggedLinkIndex]? with
  | none => links
  | some _ =>
      links.map (fun l =>
        if l.id == draggedId then { l with categoryId := targetId } else l)

/-- Link part of `performDelete` (part_000 line 574). -/
def deleteLink (links : List LinkItem) (targetId : String) : List LinkItem :=
  links.filter (fun l => !(l.id == targetId))

/-- Category part of `performDelete` (part_000 lines 576-577): drop the
category and move its links to the sentinel id "uncategorized". -/
def deleteCategory (cats : List Category) (links : List LinkItem)
    (targetId : String) : List Category × List LinkItem :=
  (cats.filter (fun c => !(c.id == targetId)),
   links.map (fun l =>
     if l.categoryId == targetId then { l with categoryId := "uncategorized" }
     else l))

/-- New-link branch of `handleSaveLink` (part_000 lines 528-536): the new
link is appended and its order is the current length of the flat list. -/
def addNewLink (links : List LinkItem) (title url : String)
    (description : Option String) (categoryId : String)
    (subLinks : List SubLink) (newId : String) (now : Nat) : List LinkItem :=
  links ++ [{ id := newId, title := title, url := url,
              description := description, categoryId := categoryId,
              createdAt := now, order := (links.length : Int),
              subLinks := subLinks }]

/-- Models JS `String.prototype.toLowerCase` characterwise. -/
def toLowerStr (s : String) : String :=
  String.mk (s.data.map Char.toLower)

/-- Models JS `haystack.includes(needle)` on character lists: some suffix of
the haystack starts with the needle. -/
def strIncludesChars (needle : List Char) : List Char → Bool
  | [] => needle.isEmpty
  | c :: rest => needle.isPrefixOf (c :: rest) || strIncludesChars needle rest

/-- JS `s.includes(q)`. -/
def strIncludes (s q : String) : Bool :=
  strIncludesChars q.data s.data

/-- Models the JS emptiness test `!searchQuery.trim()`: true exactly when
the string consists of whitespace only. -/
def isBlank (s : String) : Bool :=
  s.data.all Char.isWhitespace

/-- Match predicate of `getFilteredLinks` (part_000 lines 515-519); the
argument `q` is the already lowercased query. -/
def linkMatches (q : String) (l : LinkItem) : Bool :=
  strIncludes (toLowerStr l.title) q ||
  strIncludes (toLowerStr l.url) q ||
  (match l.description with
   | some d => strIncludes (toLowerStr d) q
   | none => false) ||
  l.subLinks.any (fun sl => strIncludes (toLowerStr sl.title) q)

/-- Stable insertion step for the ascending sort by order. -/
def insertByOrder (x : LinkItem) : List LinkItem → List LinkItem
  | [] => [x]
  | y :: ys =>
      if y.order < x.order then y :: insertByOrder x ys else x :: y :: ys

/-- Models `arr.sort((a, b) => a.order - b.order)`: a stable ascending sort
on the order field. -/
def sortByOrder : List LinkItem → List LinkItem
  | [] => []
  | x :: xs => insertByOrder x (sortByOrder xs)

/-- `getFilteredLinks` (part_000 lines 512-521). -/
def getFilteredLinks (searchQuery : String) (linkList : List LinkItem) :
    List LinkItem :=
  if isBlank searchQuery then sortByOrder linkList
  else
    let q := toLowerStr searchQuery
    sortByOrder (linkList.filter (linkMatches q))

/-- Compiled-in default password of the worker (index.ts line 13). -/
def DEFAULT_PASSWORD : String := "linkmanager"

/-- Worker configuration document (index.ts type `AppConfig`). -/
structure AppConfig where
  passwordHash : Option String
deriving DecidableEq

/-- Response body of a worker endpoint, reduced to the JSON shapes the
worker actually emits. -/
inductive RespBody where
  | errorMsg (msg : String)
  | okTrue
  | datasetBody (d : AppData)
  | authStatus (b : Bool)
deriving DecidableEq

/-- HTTP response of a worker endpoint; `setCookieHash` is the hash value
carried by the Set-Cookie header, when one is attached. -/
structure ApiResponse where
  status : Nat
  body : RespBody
  setCookieHash : Option String
deriving DecidableEq

/-- `getCurrentPasswordHash` (index.ts lines 62-66): the configured hash
when the config holds a truthy (non-empty) string, else the digest of the
default password. -/
def getCurrentPasswordHash (hash : String → String) (cfg : AppConfig) : String :=
  match cfg.passwordHash with
  | some h => if h = "" then hash DEFAULT_PASSWORD else h
  | none => hash DEFAULT_PASSWORD

/-- The password check performed by the login branch (index.ts lines
111-116), which is the `authenticate` operation of the Auth Gate contract. -/
def authenticate (hash : String → String) (cfg : AppConfig)
    (password : String) : Bool :=
  hash password == getCurrentPasswordHash hash cfg

/-- `isAuthenticated` (index.ts lines 68-73): the cookie value, when
present and truthy, must equal the current password hash. -/
def isRequestAuthenticated (hash : String → String) (cfg : AppConfig)
    (cookie : Option String) : Bool :=
  match cookie with
  | none => false
  | some token => if token = "" then false else token == getCurrentPasswordHash hash cfg

/-- Parsed JSON body of the login endpoint; `none` in the `password` field
models an absent field. -/
structure LoginBody where
  password : Option String
deriving DecidableEq

/-- Login branch of the worker fetch handler (index.ts lines 98-121). The
`body` argument is `none` when `req.json()` rejects. -/
def handleLogin (hash : String → String) (cfg : AppConfig)
    (body : Option LoginBody) : ApiResponse :=
  match body with
  | none => { status := 400, body := .errorMsg "Invalid JSON", setCookieHash := none }
  | some b =>
    let password := b.password.getD ""
    if password = "" then
      { status := 400, body := .errorMsg "Password required", setCookieHash := none }
    else
      let currentHash := getCurrentPasswordHash hash cfg
      if hash password ≠ currentHash then
        { status := 401, body := .errorMsg "Wrong password", setCookieHash := none }
      else
        { status := 200, body := .okTrue, setCookieHash := some currentHash }

/-- Parsed JSON body of the change-password endpoint. -/
structure ChangePwdBody where
  oldPassword : Option String
  newPassword : Option String
deriving DecidableEq

/-- Result of the change-password branch: the response plus the
configuration left in the KV store. -/
structure ChangePwdResult where
  response : ApiResponse
  newConfig : AppConfig
deriving DecidableEq

/-- Change-password branch of the worker fetch handler (index.ts lines
124-161). -/
def handleChangePassword (hash : String → String) (cfg : AppConfig)
    (cookie : Option String) (body : Option ChangePwdBody) : ChangePwdResult :=
  if !(isRequestAuthenticated hash cfg cookie) then
    ⟨{ status := 401, body := .errorMsg "Unauthorized", setCookieHash := none }, cfg⟩
  else
    match body with
    | none =>
        ⟨{ status := 400, body := .errorMsg "Invalid JSON", setCookieHash := none }, cfg⟩
    | some b =>
      let oldPassword := b.oldPassword.getD ""
      let newPassword := b.newPassword.getD ""
      if oldPassword = "" || newPassword = "" then
        ⟨{ status := 400,
           body := .errorMsg "oldPassword and newPassword are required",
           setCookieHash := none }, cfg⟩
      else
        let currentHash := getCurrentPasswordHash hash cfg
        if hash oldPassword ≠ currentHash then
          ⟨{ status := 400, body := .errorMsg "Old password incorrect",
             setCookieHash := none }, cfg⟩
        else
          let newHash := hash newPassword
          ⟨{ status := 200, body := .okTrue, setCookieHash := some newHash },
           { cfg with passwordHash := some newHash }⟩

/-- HTTP method of a request to /api/data. -/
inductive Method where
  | GET
  | POST
  | other
deriving DecidableEq

/-- Result of the /api/data branch: the response plus the dataset left in
the KV store. -/
structure DataResult where
  response : ApiResponse
  newStored : Option AppData
deriving DecidableEq

instance {e a : Type _} [DecidableEq e] [DecidableEq a] : DecidableEq (Except e a) :=
  fun x y =>
    match x, y with
    | .error u, .error v =>
      if h : u = v then .isTrue (congrArg Except.error h) else .isFalse (by simp [h])
    | .ok u, .ok v =>
      if h : u = v then .isTrue (congrArg Except.ok h) else .isFalse (by simp [h])
    | .error _, .ok _ => .isFalse (by simp)
    | .ok _, .error _ => .isFalse (by simp)

/-- The /api/data branch of the worker fetch handler (index.ts lines
164-187). The POST sub-branch calls `req.json()` without a try block, so an
unparseable body (`body = none`) escapes as a thrown exception, modelled as
`Except.error ()`; no response is produced by the handler in that case. -/
def handleData (hash : String → String) (cfg : AppConfig)
    (cookie : Option String) (method : Method) (stored : Option AppData)
    (body : Option AppData) : Except Unit DataResult :=
  if !(isRequestAuthenticated hash cfg cookie) then
    .ok ⟨{ status := 401, body := .errorMsg "Unauthorized", setCookieHash := none }, stored⟩
  else
    match method with
    | .GET =>
        .ok ⟨{ status := 200, body := .datasetBody (stored.getD ⟨[], []⟩),
               setCookieHash := none }, stored⟩
    | .POST =>
        match body with
        | none => .error ()
        | some d => .ok ⟨{ status := 200, body := .okTrue, setCookieHash := none }, some d⟩
    | .other =>
        .ok ⟨{ status := 405, body := .errorMsg "Method not allowed",
               setCookieHash := none }, stored⟩

/-- One link-over-link drop event, as consumed by `dropLinkOnLink`. -/
structure LinkDropEvent where
  draggedId : String
  targetId : String
  dropPosition : Option DropPosition
deriving DecidableEq

/-- A sequence of link-over-link drops applied in order. -/
def applyLinkDrops (ops : List LinkDropEvent) (links : List LinkItem) :
    List LinkItem :=
  ops.foldl (fun ls op => dropLinkOnLink ls op.draggedId op.targetId op.dropPosition) links

/-- Order values of a link list are pairwise distinct. -/
def distinctOrders (ls : List LinkItem) : Prop :=
  (ls.map (fun l => l.order)).Nodup

instance (ls : List LinkItem) : Decidable (distinctOrders ls) := by
  unfold distinctOrders; infer_instance

/-- Modelled from the words of claim C1, for comparison with
`dropLinkOnLink`: reassign the categoryId of the dragged link to that of the
target link, remove the dragged link from the flat list, re-insert it at the
post-removal index of the target link, plus one when the drop position is
AFTER, then set the order of every link to its positional index. -/
def dropLinkOnLinkClaim (links : List LinkItem) (draggedId targetId : String)
    (dropPosition : Option DropPosition) : Option (List LinkItem) :=
  match links.find? (fun l => l.id == draggedId),
        links.find? (fun l => l.id == targetId) with
  | some draggedLink, some targetLink =>
    let recategorized := { draggedLink with categoryId := targetLink.categoryId }
    let removed := links.eraseP (fun l => l.id == draggedId)
    let targetIdx := removed.findIdx (fun l => l.id == targetId)
    let insertIdx :=
      if dropPosition = some DropPosition.AFTER then targetIdx + 1 else targetIdx
    some (renumberLinks (spliceInsert insertIdx recategorized removed))
  | _, _ => none

/-- Modelled from the words of claim C2, for comparison with
`dropCategoryOnCategory`: remove the dragged category from its slot,
re-insert it at the post-removal index of the target category, then set the
order of every category to its positional index. -/
def dropCategoryOnCategoryClaim (cats : List Category)
    (draggedId targetId : String) : Option (List Category) :=
  match cats.find? (fun c => c.id == draggedId) with
  | some draggedCat =>
    let removed := cats.eraseP (fun c => c.id == draggedId)
    let targetIdx := removed.findIdx (fun c => c.id == targetId)
    some (renumberCats (spliceInsert targetIdx draggedCat removed))
  | none => none

/-- Link fixture used by the concrete counterexample and witness instances. -/
def mkLink (id categoryId : String) (order : Int) : LinkItem :=
  { id := id, title := id, url := id, description := none,
    categoryId := categoryId, createdAt := 0, order := order, subLinks := [] }

/-- Abstract hash used to instantiate the worker theorems on concrete
inputs. -/
def hashW : String → String := fun s => "h" ++ s

/-! Helper lemmas about splice, erase, findIdx and the renumbering maps. -/

theorem eraseIdx_eq_take_append_drop {α : Type _} (l : List α) (n : Nat) :
    l.eraseIdx n = l.take n ++ l.drop (n + 1) := by
  induction l generalizing n with
  | nil => simp
  | cons a as ih =>
    cases n with
    | zero => simp
    | succ m => simp [List.eraseIdx_cons_succ, ih]

theorem getElem_eraseIdx_of_lt {α : Type _} (l : List α) (n i : Nat) (h : i < n) :
    (l.eraseIdx n)[i]? = l[i]? := by
  induction l generalizing n i with
  | nil => simp
  | cons a as ih =>
    cases n with
    | zero => omega
    | succ m =>
      cases i with
      | zero => simp
      | succ j => simpa using ih m j (by omega)

theorem getElem_eraseIdx_of_ge {α : Type _} (l : List α) (n i : Nat) (h : n ≤ i) :
    (l.eraseIdx n)[i]? = l[i + 1]? := by
  induction l generalizing n i with
  | nil => simp
  | cons a as ih =>
    cases n with
    | zero => simp
    | succ m =>
      cases i with
      | zero => omega
      | succ j => simpa using ih m j (by omega)

theorem getElem_spliceInsert_of_lt {α : Type _} (n i : Nat) (a : α) (l : List α)
    (hn : n ≤ l.length) (h : i < n) :
    (spliceInsert n a l)[i]? = l[i]? := by
  unfold spliceInsert
  rw [List.getElem?_append_left
        (by rw [List.length_take]; exact lt_min h (lt_of_lt_of_le h hn)),
      List.getElem?_take]
  simp [h]

theorem getElem_spliceInsert_self {α : Type _} (n : Nat) (a : α) (l : List α)
    (hn : n ≤ l.length) :
    (spliceInsert n a l)[n]? = some a := by
  unfold spliceInsert
  rw [List.getElem?_append_right (by rw [List.length_take]; exact min_le_left _ _)]
  simp [List.length_take, Nat.min_eq_left hn]

theorem getElem_spliceInsert_of_ge {α : Type _} (n i : Nat) (a : α) (l : List α)
    (hn : n ≤ l.length) (h : n ≤ i) :
    (spliceInsert n a l)[i + 1]? = l[i]? := by
  unfold spliceInsert
  rw [List.getElem?_append_right
        (by rw [List.length_take]; exact le_trans (min_le_left _ _) (by omega))]
  rw [List.length_take, Nat.min_eq_left hn]
  have h2 : i + 1 - n = (i - n) + 1 := by omega
  rw [h2]
  rw [List.getElem?_cons_succ, List.getElem?_drop]
  congr 1
  omega

theorem spliceInsert_perm {α : Type _} (n : Nat) (a : α) (l : List α) :
    (spliceInsert n a l).Perm (a :: l) := by
  unfold spliceInsert
  have h1 : (l.take n ++ a :: l.drop n).Perm (a :: (l.take n ++ l.drop n)) :=
    List.perm_middle
  rwa [List.take_append_drop] at h1

theorem perm_cons_eraseIdx {α : Type _} (l : List α) (n : Nat) (a : α)
    (ha : l[n]? = some a) : l.Perm (a :: l.eraseIdx n) := by
  rcases List.getElem?_eq_some.mp ha with ⟨h, rfl⟩
  rw [eraseIdx_eq_take_append_drop]
  have h1 : (l.take n ++ l[n] :: l.drop (n + 1)).Perm
      (l[n] :: (l.take n ++ l.drop (n + 1))) := List.perm_middle
  have h2 : l.take n ++ l[n] :: l.drop (n + 1) = l := by
    rw [List.getElem_cons_drop, List.take_append_drop]
  rw [h2] at h1
  exact h1

theorem spliceInsert_getElem_eraseIdx {α : Type _} (l : List α) (n : Nat)
    (h : n < l.length) :
    spliceInsert n (l.get ⟨n, h⟩) (l.eraseIdx n) = l := by
  unfold spliceInsert
  rw [eraseIdx_eq_take_append_drop]
  have hlen : (l.take n).length = n := by
    rw [List.length_take]; exact Nat.min_eq_left (le_of_lt h)
  rw [List.take_left' hlen, List.drop_left' hlen]
  show l.take n ++ l[n] :: l.drop (n + 1) = l
  rw [List.getElem_cons_drop, List.take_append_drop]

theorem findIdx_eq_of_getElem {α : Type _} (p : α → Bool) :
    ∀ {l : List α} {k : Nat} {a : α}, l[k]? = some a → p a = true →
      (∀ i b, i < k → l[i]? = some b → p b = false) → l.findIdx p = k := by
  intro l
  induction l with
  | nil => intro k a ha _ _; simp at ha
  | cons c cs ih =>
    intro k a ha hp hmin
    cases k with
    | zero =>
      rw [List.getElem?_cons_zero] at ha
      cases ha
      simp [List.findIdx_cons, hp]
    | succ m =>
      have hc : p c = false := hmin 0 c (Nat.succ_pos m) (by simp)
      rw [List.getElem?_cons_succ] at ha
      have hrec := ih ha hp
        (fun i b hi hb => hmin (i + 1) b (by omega) (by simpa using hb))
      simp [List.findIdx_cons, hc, hrec]

theorem pred_false_of_getElem_lt_findIdx {α : Type _} (p : α → Bool)
    (l : List α) (i : Nat) (b : α) (hi : i < l.findIdx p)
    (hb : l[i]? = some b) : p b = false := by
  rcases List.getElem?_eq_some.mp hb with ⟨hlen, hval⟩
  have h2 := @List.not_of_lt_findIdx _ p l i hi
  rw [hval] at h2
  exact h2

theorem find_eq_getElem_findIdx {α : Type _} (p : α → Bool) (l : List α) :
    l.find? p = if l.findIdx p < l.length then l[l.findIdx p]? else none := by
  induction l with
  | nil => simp
  | cons c cs ih =>
    cases hc : p c with
    | true => simp [List.find?_cons, hc, List.findIdx_cons]
    | false =>
      simp only [List.find?_cons, hc, List.findIdx_cons, cond_false,
        List.length_cons, List.getElem?_cons_succ, Nat.add_lt_add_iff_right, ih]

theorem eraseP_eq_eraseIdx_findIdx {α : Type _} (p : α → Bool) (l : List α) :
    l.eraseP p = l.eraseIdx (l.findIdx p) := by
  induction l with
  | nil => simp
  | cons c cs ih =>
    cases hc : p c with
    | true => simp [List.eraseP_cons, hc, List.findIdx_cons]
    | false =>
      simp [List.eraseP_cons, hc, List.findIdx_cons, List.eraseIdx_cons_succ, ih]

theorem findIdx_eraseIdx_of_lt {α : Type _} (p : α → Bool) (l : List α)
    (di : Nat) (hfound : l.findIdx p < l.length) (h : l.findIdx p < di) :
    (l.eraseIdx di).findIdx p = l.findIdx p := by
  apply findIdx_eq_of_getElem p (a := l.get ⟨l.findIdx p, hfound⟩)
  · rw [getElem_eraseIdx_of_lt l di _ h]
    exact List.getElem?_eq_getElem hfound
  · exact List.findIdx_getElem
  · intro i b hi hb
    rw [getElem_eraseIdx_of_lt l di i (lt_trans hi h)] at hb
    exact pred_false_of_getElem_lt_findIdx p l i b hi hb

theorem findIdx_eraseIdx_of_gt {α : Type _} (p : α → Bool) (l : List α)
    (di : Nat) (hfound : l.findIdx p < l.length) (h : di < l.findIdx p) :
    (l.eraseIdx di).findIdx p = l.findIdx p - 1 := by
  have h1 : l.findIdx p - 1 + 1 = l.findIdx p := by omega
  apply findIdx_eq_of_getElem p (a := l.get ⟨l.findIdx p, hfound⟩)
  · rw [getElem_eraseIdx_of_ge l di _ (by omega), h1]
    exact List.getElem?_eq_getElem hfound
  · exact List.findIdx_getElem
  · intro i b hi hb
    by_cases hcase : i < di
    · rw [getElem_eraseIdx_of_lt l di i hcase] at hb
      exact pred_false_of_getElem_lt_findIdx p l i b (by omega) hb
    · rw [getElem_eraseIdx_of_ge l di i (by omega)] at hb
      exact pred_false_of_getElem_lt_findIdx p l (i + 1) b (by omega) hb

theorem beq_findIdx_getElem {α β : Type _} [BEq β] [LawfulBEq β] (f : α → β)
    (v : β) {l : List α} {a : α}
    (ha : l[l.findIdx (fun x => f x == v)]? = some a) : f a = v := by
  rcases List.getElem?_eq_some.mp ha with ⟨hlen, hval⟩
  have h2 := @List.findIdx_getElem _ (fun x => f x == v) l hlen
  rw [hval] at h2
  simpa using h2

theorem getElem_renumberLinksFrom (n : Nat) (ls : List LinkItem) (i : Nat) :
    (renumberLinksFrom n ls)[i]? =
      ls[i]?.map (fun l => { l with order := ((n + i : Nat) : Int) }) := by
  induction ls generalizing n i with
  | nil => simp [renumberLinksFrom]
  | cons a as ih =>
    cases i with
    | zero => simp [renumberLinksFrom]
    | succ j =>
      have h1 : n + 1 + j = n + (j + 1) := by omega
      simp only [renumberLinksFrom, List.getElem?_cons_succ]
      rw [ih (n + 1) j, h1]

theorem getElem_renumberCatsFrom (n : Nat) (cs : List Category) (i : Nat) :
    (renumberCatsFrom n cs)[i]? =
      cs[i]?.map (fun c => { c with order := ((n + i : Nat) : Int) }) := by
  induction cs generalizing n i with
  | nil => simp [renumberCatsFrom]
  | cons a as ih =>
    cases i with
    | zero => simp [renumberCatsFrom]
    | succ j =>
      have h1 : n + 1 + j = n + (j + 1) := by omega
      simp only [renumberCatsFrom, List.getElem?_cons_succ]
      rw [ih (n + 1) j, h1]

theorem order_of_renumberLinks {ls : List LinkItem} {i : Nat} {l : LinkItem}
    (h : (renumberLinks ls)[i]? = some l) : l.order = (i : Int) := by
  unfold renumberLinks at h
  rw [getElem_renumberLinksFrom] at h
  cases h2 : ls[i]? with
  | none => rw [h2] at h; simp at h
  | some a =>
    rw [h2] at h
    simp only [Option.map_some'] at h
    cases h
    simp

theorem order_of_renumberCats {cs : List Category} {i : Nat} {c : Category}
    (h : (renumberCats cs)[i]? = some c) : c.order = (i : Int) := by
  unfold renumberCats at h
  rw [getElem_renumberCatsFrom] at h
  cases h2 : cs[i]? with
  | none => rw [h2] at h; simp at h
  | some a =>
    rw [h2] at h
    simp only [Option.map_some'] at h
    cases h
    simp

theorem map_id_renumberCatsFrom (n : Nat) (cs : List Category) :
    (renumberCatsFrom n cs).map (fun c => c.id) = cs.map (fun c => c.id) := by
  induction cs generalizing n with
  | nil => simp [renumberCatsFrom]
  | cons a as ih => simp [renumberCatsFrom, ih (n + 1)]

theorem map_order_renumberLinksFrom (n : Nat) (ls : List LinkItem) :
    (renumberLinksFrom n ls).map (fun l => l.order) =
      (List.range' n ls.length).map (fun k : Nat => (k : Int)) := by
  induction ls generalizing n with
  | nil => simp [renumberLinksFrom]
  | cons a as ih => simp [renumberLinksFrom, List.range'_succ, ih (n + 1)]

theorem distinctOrders_renumberLinks (ls : List LinkItem) :
    distinctOrders (renumberLinks ls) := by
  unfold distinctOrders renumberLinks
  rw [map_order_renumberLinksFrom]
  have h1 : (List.range' 0 ls.length).Nodup := List.nodup_range' 0 ls.length
  have h2 : Function.Injective (fun k : Nat => (k : Int)) :=
    fun a b hab => by simpa using hab
  exact List.Nodup.map h2 h1

theorem dropLinkOnLink_eq_or_renumber (links : List LinkItem)
    (d t : String) (p : Option DropPosition) :
    dropLinkOnLink links d t p = links ∨
      ∃ ls, dropLinkOnLink links d t p = renumberLinks ls := by
  simp only [dropLinkOnLink]
  split
  · exact Or.inl rfl
  · split
    · exact Or.inl rfl
    · split
      · exact Or.inl rfl
      · exact Or.inr ⟨_, rfl⟩

theorem distinctOrders_dropLinkOnLink {links : List LinkItem}
    (h : distinctOrders links) (d t : String) (p : Option DropPosition) :
    distinctOrders (dropLinkOnLink links d t p) := by
  rcases dropLinkOnLink_eq_or_renumber links d t p with heq | ⟨ls, heq⟩
  · rwa [heq]
  · rw [heq]; exact distinctOrders_renumberLinks ls

theorem distinctOrders_applyLinkDrops (ops : List LinkDropEvent)
    (links : List LinkItem) (h : distinctOrders links) :
    distinctOrders (applyLinkDrops ops links) := by
  induction ops generalizing links with
  | nil => simpa [applyLinkDrops] using h
  | cons op rest ih =>
    unfold applyLinkDrops
    simp only [List.foldl_cons]
    exact ih _ (distinctOrders_dropLinkOnLink h _ _ _)

theorem insertByOrder_perm (x : LinkItem) (l : List LinkItem) :
    (insertByOrder x l).Perm (x :: l) := by
  induction l with
  | nil => simp [insertByOrder]
  | cons y ys ih =>
    unfold insertByOrder
    by_cases hyx : y.order < x.order
    · simp only [if_pos hyx]
      exact (List.Perm.cons y ih).trans (List.Perm.swap x y ys)
    · simp only [if_neg hyx]
      exact List.Perm.refl _

theorem sortByOrder_perm (l : List LinkItem) : (sortByOrder l).Perm l := by
  induction l with
  | nil => simp [sortByOrder]
  | cons x xs ih =>
    exact (insertByOrder_perm x (sortByOrder xs)).trans (List.Perm.cons x ih)

theorem mem_insertByOrder {a x : LinkItem} {l : List LinkItem}
    (h : a ∈ insertByOrder x l) : a = x ∨ a ∈ l := by
  have h2 := (insertByOrder_perm x l).mem_iff.mp h
  simpa using h2

theorem pairwise_insertByOrder (x : LinkItem) (l : List LinkItem)
    (h : l.Pairwise (fun a b => a.order ≤ b.order)) :
    (insertByOrder x l).Pairwise (fun a b => a.order ≤ b.order) := by
  induction l with
  | nil => simp [insertByOrder]
  | cons y ys ih =>
    rw [List.pairwise_cons] at h
    obtain ⟨hy, hys⟩ := h
    unfold insertByOrder
    by_cases hyx : y.order < x.order
    · simp only [if_pos hyx]
      rw [List.pairwise_cons]
      refine ⟨fun b hb => ?_, ih hys⟩
      rcases mem_insertByOrder hb with rfl | hb
      · exact le_of_lt hyx
      · exact hy b hb
    · simp only [if_neg hyx]
      rw [List.pairwise_cons]
      refine ⟨fun b hb => ?_, ?_⟩
      · rcases List.mem_cons.mp hb with rfl | hb
        · exact le_of_not_lt hyx
        · exact le_trans (le_of_not_lt hyx) (hy b hb)
      · rw [List.pairwise_cons]
        exact ⟨hy, hys⟩

theorem sorted_sortByOrder (l : List LinkItem) :
    (sortByOrder l).Pairwise (fun a b => a.order ≤ b.order) := by
  induction l with
  | nil => simp [sortByOrder]
  | cons x xs ih => exact pairwise_insertByOrder x _ ih

/-! Claim theorems. -/

/-- C4 (counterexample): dropping an item onto itself is NOT always a no-op.
Dropping the single category (id "c1", order 5) onto itself renumbers its
order field to 0, so the resulting categories array differs from the
previous one. -/
theorem c4_self_drop_counterexample :
    dropCategoryOnCategory [⟨"c1", "Work", 5⟩] "c1" "c1" = [⟨"c1", "Work", 0⟩] ∧
    ([⟨"c1", "Work", 0⟩] : List Category) ≠ [⟨"c1", "Work", 5⟩] := by
  decide

/-- C4 (amended): dropping a link onto itself is a no-op, and dropping a
category onto itself leaves the category sequence (ids, names, positions)
unchanged but renumbers every order field to its positional index, so it is
a no-op only when the orders were already positional. -/
theorem c4_self_drop_amended :
    (∀ (links : List LinkItem) (id : String) (pos : Option DropPosition),
      dropLinkOnLink links id id pos = links) ∧
    (∀ (cats : List Category) (id : String),
      cats.findIdx (fun c => c.id == id) < cats.length →
      dropCategoryOnCategory cats id id = renumberCats cats) := by
  constructor
  · intro links id pos
    simp only [dropLinkOnLink]
    split
    · rfl
    · split
      · rfl
      · simp
  · intro cats id h
    have ha : cats[cats.findIdx (fun c => c.id == id)]? =
        some (cats.get ⟨cats.findIdx (fun c => c.id == id), h⟩) :=
      List.getElem?_eq_getElem h
    simp only [dropCategoryOnCategory, ha]
    rw [spliceInsert_getElem_eraseIdx]

/-- C4 (witness): the amended statement evaluated at concrete inputs; the
self category drop of (id "c2", order 9) in a two-element list resets the
orders to 0 and 1. -/
theorem c4_self_drop_amended_witness :
    dropLinkOnLink [mkLink "x" "c" 7] "x" "x" none = [mkLink "x" "c" 7] ∧
    dropCategoryOnCategory [⟨"c1", "Work", 5⟩, ⟨"c2", "Home", 9⟩] "c2" "c2" =
      renumberCats [⟨"c1", "Work", 5⟩, ⟨"c2", "Home", 9⟩] :=
  ⟨c4_self_drop_amended.1 [mkLink "x" "c" 7] "x" none,
   c4_self_drop_amended.2 [⟨"c1", "Work", 5⟩, ⟨"c2", "Home", 9⟩] "c2" (by decide)⟩

/-- C5: deleting a category C keeps the link list length unchanged, removes
exactly the categories with id C from the category collection, and maps
every link pointwise so that a link whose categoryId equals C is reassigned
to "uncategorized" with all other fields unchanged, while every other link
is untouched. -/
theorem c5_delete_category (cats : List Category) (links : List LinkItem)
    (C : String) :
    (deleteCategory cats links C).2.length = links.length ∧
    (∀ c, c ∈ (deleteCategory cats links C).1 ↔ (c ∈ cats ∧ c.id ≠ C)) ∧
    (∀ i : Nat, (deleteCategory cats links C).2[i]? =
      links[i]?.map (fun l =>
        if l.categoryId = C then { l with categoryId := "uncategorized" }
        else l)) := by
  refine ⟨?_, ?_, ?_⟩
  · simp [deleteCategory]
  · intro c
    simp [deleteCategory, List.mem_filter]
  · intro i
    simp only [deleteCategory, List.getElem?_map]
    cases h : links[i]? with
    | none => simp
    | some l =>
      simp only [Option.map_some']
      by_cases hc : l.categoryId = C
      · simp [hc]
      · simp [hc]

/-- C6: the search filter returns a permutation of the matching links (all
of the input when the query is blank, else exactly the links whose title,
url, description or some sub-link title contains the lowercased query),
sorted ascending by the order field. -/
theorem c6_filtered_links (searchQuery : String) (linkList : List LinkItem) :
    (getFilteredLinks searchQuery linkList).Perm
      (if isBlank searchQuery then linkList
       else linkList.filter (linkMatches (toLowerStr searchQuery))) ∧
    (getFilteredLinks searchQuery linkList).Pairwise
      (fun a b => a.order ≤ b.order) := by
  unfold getFilteredLinks
  by_cases hb : isBlank searchQuery = true
  · simp only [if_pos hb]
    exact ⟨sortByOrder_perm _, sorted_sortByOrder _⟩
  · simp only [if_neg hb]
    exact ⟨sortByOrder_perm _, sorted_sortByOrder _⟩

/-- C8: the login endpoint returns 400 Invalid JSON for an unparseable
body, 400 Password required for a missing or empty password, 401 Wrong
password when the digest of the password differs from the current hash
(the current hash being the default-password digest whenever no hash is
configured), and 200 ok with a cookie carrying the current hash when the
digests agree. -/
theorem c8_login (hash : String → String) (cfg : AppConfig) (pwd : String) :
    handleLogin hash cfg none = ⟨400, .errorMsg "Invalid JSON", none⟩ ∧
    handleLogin hash cfg (some ⟨none⟩) =
      ⟨400, .errorMsg "Password required", none⟩ ∧
    handleLogin hash cfg (some ⟨some ""⟩) =
      ⟨400, .errorMsg "Password required", none⟩ ∧
    (cfg.passwordHash = none →
      getCurrentPasswordHash hash cfg = hash DEFAULT_PASSWORD) ∧
    (pwd ≠ "" → hash pwd ≠ getCurrentPasswordHash hash cfg →
      handleLogin hash cfg (some ⟨some pwd⟩) =
        ⟨401, .errorMsg "Wrong password", none⟩) ∧
    (pwd ≠ "" → hash pwd = getCurrentPasswordHash hash cfg →
      handleLogin hash cfg (some ⟨some pwd⟩) =
        ⟨200, .okTrue, some (getCurrentPasswordHash hash cfg)⟩) := by
  refine ⟨rfl, by simp [handleLogin], by simp [handleLogin], ?_, ?_, ?_⟩
  · intro h
    simp [getCurrentPasswordHash, h]
  · intro hp hdiff
    simp [handleLogin, hp, hdiff]
  · intro hp heq
    simp [handleLogin, hp, heq]

/-- C8 (witness): the spec scenario, a wrong password against an
unconfigured store yields 401 Wrong password. -/
theorem c8_login_witness :
    handleLogin hashW ⟨none⟩ (some ⟨some "bad"⟩) =
      ⟨401, .errorMsg "Wrong password", none⟩ :=
  (c8_login hashW ⟨none⟩ "bad").2.2.2.2.1 (by decide) (by decide)

/-- C9 (counterexample): an authenticated POST to /api/data with an
unparseable body does not yield a 400 response; the handler calls
req.json() outside any try block, so the rejection escapes as a thrown
exception and no response is produced. -/
theorem c9_invalid_json_counterexample :
    handleData hashW ⟨none⟩ (some (hashW "linkmanager")) .POST none none =
      Except.error () ∧
    (Except.error () : Except Unit DataResult) ≠
      Except.ok ⟨⟨400, .errorMsg "Invalid JSON", none⟩, none⟩ := by
  decide

/-- C9 (amended): requests to /api/data without a cookie matching the
current password hash fail with 401 Unauthorized; an authenticated GET
returns the stored dataset or the empty default; an authenticated POST
overwrites the stored dataset unconditionally with the request body; an
authenticated POST with an unparseable body throws instead of producing a
400 response. -/
theorem c9_data_endpoint_amended (hash : String → String) (cfg : AppConfig)
    (cookie : Option String) (method : Method) (stored : Option AppData)
    (body : Option AppData) :
    (isRequestAuthenticated hash cfg cookie = false →
      handleData hash cfg cookie method stored body =
        .ok ⟨⟨401, .errorMsg "Unauthorized", none⟩, stored⟩) ∧
    (isRequestAuthenticated hash cfg cookie = true →
      handleData hash cfg cookie .GET stored body =
        .ok ⟨⟨200, .datasetBody (stored.getD ⟨[], []⟩), none⟩, stored⟩) ∧
    (isRequestAuthenticated hash cfg cookie = true → ∀ d, body = some d →
      handleData hash cfg cookie .POST stored body =
        .ok ⟨⟨200, .okTrue, none⟩, some d⟩) ∧
    (isRequestAuthenticated hash cfg cookie = true →
      handleData hash cfg cookie .POST stored none = Except.error ()) := by
  refine ⟨?_, ?_, ?_, ?_⟩
  · intro h
    simp [handleData, h]
  · intro h
    simp [handleData, h]
  · intro h d hd
    subst hd
    simp [handleData, h]
  · intro h
    simp [handleData, h]

/-- C9 (witness): the amended statement at concrete inputs, an
authenticated GET against an empty store returns the empty default
dataset. -/
theorem c9_data_endpoint_witness :
    handleData hashW ⟨none⟩ (some (hashW "linkmanager")) .GET none none =
      .ok ⟨⟨200, .datasetBody ⟨[], []⟩, none⟩, none⟩ :=
  (c9_data_endpoint_amended hashW ⟨none⟩ (some (hashW "linkmanager"))
    .GET none none).2.1 (by decide)

/-- C10: adding a new link appends it with order equal to the previous
total link count; deleting a link removes exactly the links with the given
id and keeps every survivor verbatim (no renumbering, the result is a
sublist); consequently, deleting the link of order 0 out of two and then
adding a link yields two links with equal order 1, so insertion and
deletion do not preserve uniqueness of order values. -/
theorem c10_link_add_delete (links : List LinkItem)
    (title url categoryId newId delId : String) (description : Option String)
    (subLinks : List SubLink) (now : Nat) :
    (addNewLink links title url description categoryId subLinks newId now).length =
      links.length + 1 ∧
    (addNewLink links title url description categoryId subLinks newId
        now)[links.length]?.map (fun l => l.order) = some (links.length : Int) ∧
    (∀ l, l ∈ deleteLink links delId ↔ (l ∈ links ∧ l.id ≠ delId)) ∧
    (deleteLink links delId).Sublist links ∧
    ¬ distinctOrders (addNewLink (deleteLink [mkLink "a" "c" 0, mkLink "b" "c" 1] "a")
        "t" "u" none "c" [] "n" 0) := by
  refine ⟨by simp [addNewLink], ?_, ?_, List.filter_sublist _, by decide⟩
  · simp [addNewLink, List.getElem?_concat_length]
  · intro l
    simp [deleteLink, List.mem_filter]

/-- C7 (counterexample): when the digest of the old password differs from
the current hash, the change-password branch answers 400 with the message
"Old password incorrect"; it does not fail with the Unauthorized error,
which is reserved for requests whose cookie is invalid. -/
theorem c7_unauthorized_label_counterexample :
    handleChangePassword hashW ⟨none⟩ (some (hashW "linkmanager"))
        (some ⟨some "wrong", some "secret2"⟩) =
      ⟨⟨400, .errorMsg "Old password incorrect", none⟩, ⟨none⟩⟩ ∧
    (⟨400, RespBody.errorMsg "Old password incorrect", none⟩ : ApiResponse) ≠
      ⟨401, RespBody.errorMsg "Unauthorized", none⟩ := by
  decide

/-- C7 (amended): with no configured hash, the default password
authenticates; on an authenticated request, change-password fails with 400
Old password incorrect (leaving the configuration unchanged) when the old
digest differs from the current hash, and on success persists the digest of
the new password and attaches it to the cookie; afterwards the new password
authenticates, and when the two digests differ (and the new digest is a
real, non-empty digest) the old password no longer authenticates and a
cookie carrying the previous hash fails the request-authentication check. -/
theorem c7_change_password_amended (hash : String → String) (cfg : AppConfig)
    (cookie : Option String) (oldPw newPw : String)
    (hold : oldPw ≠ "") (hnew : newPw ≠ "")
    (hauth : isRequestAuthenticated hash cfg cookie = true) :
    authenticate hash { passwordHash := none } DEFAULT_PASSWORD = true ∧
    (hash oldPw ≠ getCurrentPasswordHash hash cfg →
      handleChangePassword hash cfg cookie (some ⟨some oldPw, some newPw⟩) =
        ⟨⟨400, .errorMsg "Old password incorrect", none⟩, cfg⟩) ∧
    (hash oldPw = getCurrentPasswordHash hash cfg →
      handleChangePassword hash cfg cookie (some ⟨some oldPw, some newPw⟩) =
        ⟨⟨200, .okTrue, some (hash newPw)⟩,
         { cfg with passwordHash := some (hash newPw) }⟩) ∧
    (hash newPw ≠ "" →
      authenticate hash { cfg with passwordHash := some (hash newPw) } newPw = true) ∧
    (hash oldPw = getCurrentPasswordHash hash cfg → hash oldPw ≠ hash newPw →
      hash newPw ≠ "" →
      authenticate hash { cfg with passwordHash := some (hash newPw) } oldPw = false ∧
      isRequestAuthenticated hash { cfg with passwordHash := some (hash newPw) }
        (some (getCurrentPasswordHash hash cfg)) = false) := by
  refine ⟨by simp [authenticate, getCurrentPasswordHash], ?_, ?_, ?_, ?_⟩
  · intro hdiff
    simp [handleChangePassword, hauth, hold, hnew, hdiff]
  · intro heq
    simp [handleChangePassword, hauth, hold, hnew, heq]
  · intro hnn
    simp [authenticate, getCurrentPasswordHash, hnn]
  · intro heq hneq hnn
    constructor
    · simp [authenticate, getCurrentPasswordHash, hnn, hneq]
    · by_cases h0 : getCurrentPasswordHash hash cfg = ""
      · simp [isRequestAuthenticated, h0]
      · simp only [isRequestAuthenticated, if_neg h0]
        rw [← heq] at h0 ⊢
        simp [getCurrentPasswordHash, hnn, hneq]

/-- C7 (witness): the amended statement evaluated with the abstract digest
prefixing "h": changing the password from the default to "secret" succeeds,
after which "secret" authenticates, "linkmanager" does not, and the old
cookie value fails the check. -/
theorem c7_change_password_witness :
    handleChangePassword hashW ⟨none⟩ (some (hashW "linkmanager"))
        (some ⟨some "linkmanager", some "secret"⟩) =
      ⟨⟨200, .okTrue, some (hashW "secret")⟩, ⟨some (hashW "secret")⟩⟩ ∧
    authenticate hashW ⟨some (hashW "secret")⟩ "secret" = true ∧
    authenticate hashW ⟨some (hashW "secret")⟩ "linkmanager" = false ∧
    isRequestAuthenticated hashW ⟨some (hashW "secret")⟩
      (some (hashW "linkmanager")) = false := by
  have h := c7_change_password_amended hashW ⟨none⟩ (some (hashW "linkmanager"))
    "linkmanager" "secret" (by decide) (by decide) (by decide)
  refine ⟨h.2.2.1 (by decide), h.2.2.2.1 (by decide), ?_, ?_⟩
  · exact (h.2.2.2.2 (by decide) (by decide) (by decide)).1
  · exact (h.2.2.2.2 (by decide) (by decide) (by decide)).2

/-- C3 (counterexample): with links A and C in category X interleaved with
link B of category Y, all orders distinct, a single BEFORE drop of A onto C
renumbers across the whole flat list, leaving the two links of category X
with orders 1 and 2, which is not a permutation of 0..1. -/
theorem c3_per_category_counterexample :
    distinctOrders [mkLink "A" "X" 0, mkLink "B" "Y" 1, mkLink "C" "X" 2] ∧
    ((applyLinkDrops [⟨"A", "C", some .BEFORE⟩]
        [mkLink "A" "X" 0, mkLink "B" "Y" 1, mkLink "C" "X" 2]).filter
      (fun l => l.categoryId == "X")).map (fun l => l.order) = [1, 2] ∧
    ¬ (([1, 2] : List Int).Perm ((List.range 2).map (fun k : Nat => (k : Int)))) := by
  refine ⟨by decide, by decide, by decide⟩

/-- C3 (amended): any sequence of link-over-link drops preserves
distinctness of the order values, and every effective drop (dragged and
target both present, at different positions) leaves each link with order
equal to its positional index in the entire flat list, hence the full flat
order sequence is 0..M-1 but a single category generally does not carry
0..N-1. -/
theorem c3_order_invariant_amended (ops : List LinkDropEvent)
    (links : List LinkItem) (h : distinctOrders links) :
    distinctOrders (applyLinkDrops ops links) ∧
    (∀ (draggedId targetId : String) (pos : Option DropPosition),
      links.findIdx (fun l => l.id == draggedId) < links.length →
      links.findIdx (fun l => l.id == targetId) < links.length →
      links.findIdx (fun l => l.id == draggedId) ≠
        links.findIdx (fun l => l.id == targetId) →
      ∀ (i : Nat) (l : LinkItem),
        (dropLinkOnLink links draggedId targetId pos)[i]? = some l →
        l.order = (i : Int)) := by
  refine ⟨distinctOrders_applyLinkDrops ops links h, ?_⟩
  intro draggedId targetId pos hd ht hne i l hget
  have ha : links[links.findIdx (fun x => x.id == draggedId)]? =
      some (links.get ⟨links.findIdx (fun x => x.id == draggedId), hd⟩) :=
    List.getElem?_eq_getElem hd
  have hb : links[links.findIdx (fun x => x.id == targetId)]? =
      some (links.get ⟨links.findIdx (fun x => x.id == targetId), ht⟩) :=
    List.getElem?_eq_getElem ht
  simp only [dropLinkOnLink, ha, hb, if_neg hne] at hget
  exact order_of_renumberLinks hget

/-- C3 (witness): the amended statement on the counterexample state, the
resulting flat order values are distinct. -/
theorem c3_order_invariant_witness :
    distinctOrders (applyLinkDrops [⟨"A", "C", some .BEFORE⟩]
      [mkLink "A" "X" 0, mkLink "B" "Y" 1, mkLink "C" "X" 2]) :=
  (c3_order_invariant_amended [⟨"A", "C", some .BEFORE⟩]
    [mkLink "A" "X" 0, mkLink "B" "Y" 1, mkLink "C" "X" 2] (by decide)).1

/-- C2 (counterexample): dragging category "a" onto category "b" in the
two-element list does not re-insert the dragged category at the target's
post-removal index, which would reproduce the original list; the code
inserts at the index found before the removal, yielding the moved-after
list. -/
theorem c2_category_drop_counterexample :
    dropCategoryOnCategoryClaim [⟨"a", "A", 0⟩, ⟨"b", "B", 1⟩] "a" "b" =
      some [⟨"a", "A", 0⟩, ⟨"b", "B", 1⟩] ∧
    dropCategoryOnCategory [⟨"a", "A", 0⟩, ⟨"b", "B", 1⟩] "a" "b" =
      [⟨"b", "B", 0⟩, ⟨"a", "A", 1⟩] ∧
    dropCategoryOnCategoryClaim [⟨"a", "A", 0⟩, ⟨"b", "B", 1⟩] "a" "b" ≠
      some (dropCategoryOnCategory [⟨"a", "A", 0⟩, ⟨"b", "B", 1⟩] "a" "b") := by
  refine ⟨by decide, by decide, by decide⟩

/-- C2 (amended): dropping a category onto a different one is a
move-to-position: every order field of the result equals its positional
index (0-based, contiguous), the result is a permutation of the same
category ids, and the dragged category lands at the index the target held
BEFORE the removal, which places it immediately before the target when the
drag moves toward the front and immediately after the target when the drag
moves toward the back. -/
theorem c2_category_drop_amended (cats : List Category)
    (draggedId targetId : String)
    (hd : cats.findIdx (fun c => c.id == draggedId) < cats.length)
    (ht : cats.findIdx (fun c => c.id == targetId) < cats.length)
    (hne : draggedId ≠ targetId) :
    (∀ (i : Nat) (c : Category),
      (dropCategoryOnCategory cats draggedId targetId)[i]? = some c →
      c.order = (i : Int)) ∧
    ((dropCategoryOnCategory cats draggedId targetId).map (fun c => c.id)).Perm
      (cats.map (fun c => c.id)) ∧
    (dropCategoryOnCategory cats draggedId
        targetId)[cats.findIdx (fun c => c.id == targetId)]?.map (fun c => c.id) =
      some draggedId ∧
    (cats.findIdx (fun c => c.id == targetId) <
        cats.findIdx (fun c => c.id == draggedId) →
      (dropCategoryOnCategory cats draggedId
          targetId)[cats.findIdx (fun c => c.id == targetId) + 1]?.map
        (fun c => c.id) = some targetId) ∧
    (cats.findIdx (fun c => c.id == draggedId) <
        cats.findIdx (fun c => c.id == targetId) →
      (dropCategoryOnCategory cats draggedId
          targetId)[cats.findIdx (fun c => c.id == targetId) - 1]?.map
        (fun c => c.id) = some targetId) := by
  obtain ⟨a, ha⟩ : ∃ a, cats[cats.findIdx (fun c => c.id == draggedId)]? = some a :=
    ⟨_, List.getElem?_eq_getElem hd⟩
  obtain ⟨b, hb⟩ : ∃ b, cats[cats.findIdx (fun c => c.id == targetId)]? = some b :=
    ⟨_, List.getElem?_eq_getElem ht⟩
  have hida : a.id = draggedId :=
    beq_findIdx_getElem (fun c : Category => c.id) draggedId ha
  have hidb : b.id = targetId :=
    beq_findIdx_getElem (fun c : Category => c.id) targetId hb
  have hrestlen :
      (cats.eraseIdx (cats.findIdx (fun c => c.id == draggedId))).length =
        cats.length - 1 := by
    rw [List.length_eraseIdx]
    simp [hd]
  have hKle : cats.findIdx (fun c => c.id == targetId) ≤
      (cats.eraseIdx (cats.findIdx (fun c => c.id == draggedId))).length := by
    rw [hrestlen]; omega
  refine ⟨?_, ?_, ?_, ?_, ?_⟩
  · intro i c hc
    simp only [dropCategoryOnCategory, ha, hb] at hc
    exact order_of_renumberCats hc
  · simp only [dropCategoryOnCategory, ha, hb]
    rw [renumberCats, map_id_renumberCatsFrom]
    have p1 := (spliceInsert_perm (cats.findIdx (fun c => c.id == targetId)) a
      (cats.eraseIdx (cats.findIdx (fun c => c.id == draggedId)))).map
        (fun c => c.id)
    have p2 := (perm_cons_eraseIdx cats
      (cats.findIdx (fun c => c.id == draggedId)) a ha).map (fun c => c.id)
    exact p1.trans p2.symm
  · simp only [dropCategoryOnCategory, ha, hb]
    rw [renumberCats, getElem_renumberCatsFrom,
      getElem_spliceInsert_self _ _ _ hKle]
    simp [hida]
  · intro hlt
    simp only [dropCategoryOnCategory, ha, hb]
    rw [renumberCats, getElem_renumberCatsFrom,
      getElem_spliceInsert_of_ge _ _ _ _ hKle (le_refl _),
      getElem_eraseIdx_of_lt _ _ _ hlt, hb]
    simp [hidb]
  · intro hgt
    have h1 : cats.findIdx (fun c => c.id == targetId) - 1 <
        cats.findIdx (fun c => c.id == targetId) := by omega
    have h2 : cats.findIdx (fun c => c.id == targetId) - 1 + 1 =
        cats.findIdx (fun c => c.id == targetId) := by omega
    simp only [dropCategoryOnCategory, ha, hb]
    rw [renumberCats, getElem_renumberCatsFrom,
      getElem_spliceInsert_of_lt _ _ _ _ hKle h1,
      getElem_eraseIdx_of_ge _ _ _ (by omega), h2, hb]
    simp [hidb]

/-- C2 (witness): the amended statement at a concrete three-category list,
dragging "x" down onto "z" places "x" at the slot "z" held before the
removal, immediately after "z". -/
theorem c2_category_drop_amended_witness :
    (dropCategoryOnCategory [⟨"x", "X", 0⟩, ⟨"y", "Y", 1⟩, ⟨"z", "Z", 2⟩]
        "x" "z")[2]?.map (fun c => c.id) = some "x" :=
  (c2_category_drop_amended [⟨"x", "X", 0⟩, ⟨"y", "Y", 1⟩, ⟨"z", "Z", 2⟩]
    "x" "z" (by decide) (by decide) (by decide)).2.2.1

/-- C1: for every state and every drop of a dragged link onto a different
target link that is present in the list, the code result equals the
claimed composite operation: categoryId reassigned to the target link's
categoryId, dragged link removed from the flat list, re-inserted at the
target's post-removal index plus one when the drop position is AFTER, and
every order set to its positional index in the entire flat list; moreover,
when the drop position is not AFTER (BEFORE, or none), the dragged link
ends up immediately before the target link in the flat sequence and
carries the target's categoryId. -/
theorem c1_link_over_link_drop (links : List LinkItem)
    (draggedId targetId : String) (pos : Option DropPosition)
    (hd : links.findIdx (fun l => l.id == draggedId) < links.length)
    (ht : links.findIdx (fun l => l.id == targetId) < links.length)
    (hne : draggedId ≠ targetId) :
    dropLinkOnLinkClaim links draggedId targetId pos =
      some (dropLinkOnLink links draggedId targetId pos) ∧
    (pos ≠ some DropPosition.AFTER →
      ∃ k : Nat,
        (dropLinkOnLink links draggedId targetId pos)[k]?.map (fun l => l.id) =
          some draggedId ∧
        (dropLinkOnLink links draggedId targetId pos)[k]?.map
            (fun l => l.categoryId) =
          (links.find? (fun l => l.id == targetId)).map (fun l => l.categoryId) ∧
        (dropLinkOnLink links draggedId targetId
            pos)[k + 1]?.map (fun l => l.id) = some targetId) := by
  obtain ⟨a, ha⟩ : ∃ a, links[links.findIdx (fun l => l.id == draggedId)]? = some a :=
    ⟨_, List.getElem?_eq_getElem hd⟩
  obtain ⟨b, hb⟩ : ∃ b, links[links.findIdx (fun l => l.id == targetId)]? = some b :=
    ⟨_, List.getElem?_eq_getElem ht⟩
  have hida : a.id = draggedId :=
    beq_findIdx_getElem (fun l : LinkItem => l.id) draggedId ha
  have hidb : b.id = targetId :=
    beq_findIdx_getElem (fun l : LinkItem => l.id) targetId hb
  have hdt : links.findIdx (fun l => l.id == draggedId) ≠
      links.findIdx (fun l => l.id == targetId) := by
    intro hcontra
    rw [hcontra] at ha
    rw [ha] at hb
    cases hb
    exact hne (hida.symm.trans hidb)
  have hfa : links.find? (fun l => l.id == draggedId) = some a := by
    rw [find_eq_getElem_findIdx, if_pos hd]; exact ha
  have hfb : links.find? (fun l => l.id == targetId) = some b := by
    rw [find_eq_getElem_findIdx, if_pos ht]; exact hb
  have hrestlen :
      (links.eraseIdx (links.findIdx (fun l => l.id == draggedId))).length =
        links.length - 1 := by
    rw [List.length_eraseIdx]
    simp [hd]
  have hK : (links.eraseIdx (links.findIdx (fun l => l.id == draggedId))).findIdx
      (fun l => l.id == targetId) <
      (links.eraseIdx (links.findIdx (fun l => l.id == draggedId))).length := by
    rcases Nat.lt_or_ge (links.findIdx (fun l => l.id == targetId))
        (links.findIdx (fun l => l.id == draggedId)) with hlt | hge
    · rw [findIdx_eraseIdx_of_lt _ _ _ ht hlt, hrestlen]
      omega
    · have hgt : links.findIdx (fun l => l.id == draggedId) <
          links.findIdx (fun l => l.id == targetId) :=
        lt_of_le_of_ne hge hdt
      rw [findIdx_eraseIdx_of_gt _ _ _ ht hgt, hrestlen]
      omega
  constructor
  · simp only [dropLinkOnLinkClaim, hfa, hfb, eraseP_eq_eraseIdx_findIdx]
    simp only [dropLinkOnLink, ha, hb, if_neg hdt]
  · intro hpos
    refine ⟨(links.eraseIdx (links.findIdx (fun l => l.id == draggedId))).findIdx
      (fun l => l.id == targetId), ?_, ?_, ?_⟩
    · simp only [dropLinkOnLink, ha, hb, if_neg hdt, if_neg hpos]
      rw [renumberLinks, getElem_renumberLinksFrom,
        getElem_spliceInsert_self _ _ _ (le_of_lt hK)]
      simp [hida]
    · simp only [dropLinkOnLink, ha, hb, if_neg hdt, if_neg hpos]
      rw [renumberLinks, getElem_renumberLinksFrom,
        getElem_spliceInsert_self _ _ _ (le_of_lt hK), hfb]
      simp
    · simp only [dropLinkOnLink, ha, hb, if_neg hdt, if_neg hpos]
      rw [renumberLinks, getElem_renumberLinksFrom,
        getElem_spliceInsert_of_ge _ _ _ _ (le_of_lt hK) (le_refl _)]
      obtain ⟨c, hc⟩ : ∃ c,
          (links.eraseIdx (links.findIdx (fun l => l.id == draggedId)))[
            (links.eraseIdx (links.findIdx (fun l => l.id == draggedId))).findIdx
              (fun l => l.id == targetId)]? = some c :=
        ⟨_, List.getElem?_eq_getElem hK⟩
      have hidc : c.id = targetId :=
        beq_findIdx_getElem (fun l : LinkItem => l.id) targetId hc
      rw [hc]
      simp [hidc]

/-- C1 (witness): the spec scenario, link A of category X dropped BEFORE
link B of category Y: the claimed composite and the code agree. -/
theorem c1_link_over_link_drop_witness :
    dropLinkOnLinkClaim [mkLink "A" "X" 2, mkLink "B" "Y" 0] "A" "B"
        (some .BEFORE) =
      some (dropLinkOnLink [mkLink "A" "X" 2, mkLink "B" "Y" 0] "A" "B"
        (some .BEFORE)) :=
  (c1_link_over_link_drop [mkLink "A" "X" 2, mkLink "B" "Y" 0] "A" "B"
    (some .BEFORE) (by decide) (by decide) (by decide)).1
